import Mathlib

/-!
Verification development for the `ui-webscoket` take-home exam repository.

The repository contains two interactive widgets:

* `LogStreamViewer` (src/app/build/components/LogStreamViewer.tsx): a
  virtualized log viewer with level toggles, a debounced text search,
  a bounded demo log buffer, and pin-to-latest scrolling.
* `EventViewer` (src/unnamed/part_002): an event list fed by a (mock)
  WebSocket, with an always-latest callback ref, an abortable async
  filter (`useAsyncMemo`) and a debounced search.

This file shallowly embeds the data model and the state-manipulating
logic of those components (strings as `List Char`, JS arrays as `List`,
React state updates as explicit state-passing functions, timers and
promise resolutions as explicit event sequences) and proves the spec's
testable properties about them.
-/

namespace UiWebsocket

/-! ## JS string primitives used by the source

`message.toLowerCase()`, `String.prototype.includes`, and
`String.prototype.trim` are modelled on `List Char`. -/

/-- JS `s.toLowerCase()` modelled character-wise via `Char.toLower`. -/
def lowerList (s : List Char) : List Char := s.map Char.toLower

/-- `isPrefList q s` : `q` occurs at the start of `s` (helper for
`String.prototype.includes`). -/
def isPrefList : List Char → List Char → Bool
  | [], _ => true
  | _ :: _, [] => false
  | a :: as, b :: bs => a == b && isPrefList as bs

/-- JS `s.includes(q)` : `q` occurs contiguously somewhere in `s`. -/
def hasSub (s q : List Char) : Bool :=
  match s with
  | [] => isPrefList q []
  | c :: rest => isPrefList q (c :: rest) || hasSub rest q

/-- The WhiteSpace / LineTerminator set trimmed by JS
`String.prototype.trim` (ECMA-262). -/
def jsWs (c : Char) : Bool :=
  let n := c.toNat
  n == 9 || n == 10 || n == 11 || n == 12 || n == 13 || n == 32 ||
  n == 160 || n == 0x1680 || (0x2000 ≤ n && n ≤ 0x200A) ||
  n == 0x2028 || n == 0x2029 || n == 0x202F || n == 0x205F ||
  n == 0x3000 || n == 0xFEFF

/-- JS `s.trim()` : drop leading and trailing whitespace. -/
def trimList (s : List Char) : List Char :=
  (((s.dropWhile jsWs).reverse).dropWhile jsWs).reverse

/-! ## Log data model (LogStreamViewer.tsx) -/

/-- `LogLevel` from LogStreamViewer.tsx. -/
inductive LogLevel where
  | DEBUG | INFO | WARN | ERROR
deriving DecidableEq, Repr

/-- `LogEntry` from LogStreamViewer.tsx.  The source field `_lc` (the
precomputed lowercased message) is named `lc` here. -/
structure LogEntry where
  id : List Char
  ts : Int
  level : LogLevel
  message : List Char
  lc : List Char
deriving DecidableEq, Repr

/-- The `enabledLevels : Record<LogLevel, boolean>` filter state. -/
structure EnabledLevels where
  debug : Bool
  info : Bool
  warn : Bool
  error : Bool
deriving DecidableEq, Repr

/-- JS object indexing `enabledLevels[log.level]`. -/
def EnabledLevels.get (e : EnabledLevels) : LogLevel → Bool
  | .DEBUG => e.debug
  | .INFO => e.info
  | .WARN => e.warn
  | .ERROR => e.error

/-- `debouncedSearchLc = debouncedSearch.trim().toLowerCase()`
(LogStreamViewer.tsx lines 188-191): the effective query derived from
the (debounced) raw search text. -/
def debouncedSearchLc (s : List Char) : List Char :=
  lowerList (trimList s)

/-- The body of the `for` loop of `filteredIndices`
(LogStreamViewer.tsx lines 198-211), with `i` the position of the head
of the remaining list: skip a record whose level is disabled, skip a
record failing the query substring test when a query is active,
otherwise push `i`. -/
def filterLoop (enabled : EnabledLevels) (useQuery : Bool) (q : List Char) :
    Nat → List LogEntry → List Nat
  | _, [] => []
  | i, log :: rest =>
    if !(enabled.get log.level) then filterLoop enabled useQuery q (i + 1) rest
    else if useQuery && !(hasSub log.lc q) then
      filterLoop enabled useQuery q (i + 1) rest
    else i :: filterLoop enabled useQuery q (i + 1) rest

/-- `filteredIndices` (LogStreamViewer.tsx lines 198-211): the visible
index set, given the buffer `logs`, the enabled levels, and the
effective query `q` (already trimmed and lowercased). -/
def filteredIndices (logs : List LogEntry) (enabled : EnabledLevels)
    (q : List Char) : List Nat :=
  filterLoop enabled (decide (0 < q.length)) q 0 logs

/-- The record predicate of the loop body, as a single Bool. -/
def passes (enabled : EnabledLevels) (useQuery : Bool) (q : List Char)
    (log : LogEntry) : Bool :=
  enabled.get log.level && (!useQuery || hasSub log.lc q)

/-- One unfolding of the loop: the head contributes `[i]` iff it passes
the combined predicate. -/
lemma filterLoop_cons (enabled : EnabledLevels) (u : Bool) (q : List Char)
    (i : Nat) (log : LogEntry) (rest : List LogEntry) :
    filterLoop enabled u q i (log :: rest) =
      (if passes enabled u q log then [i] else []) ++
        filterLoop enabled u q (i + 1) rest := by
  simp only [filterLoop, passes]
  split_ifs with h1 h2 <;> simp_all

/-- Membership characterization of the loop: `j` is produced iff it is
`i` plus the position of some record passing the predicate. -/
lemma mem_filterLoop (enabled : EnabledLevels) (u : Bool) (q : List Char) :
    ∀ (logs : List LogEntry) (i j : Nat),
      j ∈ filterLoop enabled u q i logs ↔
        ∃ k, ∃ h : k < logs.length,
          j = i + k ∧ passes enabled u q (logs.get ⟨k, h⟩) = true := by
  intro logs
  induction logs with
  | nil => intro i j; simp [filterLoop]
  | cons a rest ih =>
    intro i j
    rw [filterLoop_cons]
    constructor
    · intro hmem
      rcases List.mem_append.1 hmem with hl | hr
      · refine ⟨0, by simp, ?_, ?_⟩
        · rcases hp : passes enabled u q a with _ | _ <;> simp [hp] at hl
          omega
        · rcases hp : passes enabled u q a with _ | _ <;> simp [hp] at hl ⊢
      · rcases (ih (i + 1) j).1 hr with ⟨k, hk, hj, hp⟩
        exact ⟨k + 1, by simpa using Nat.succ_lt_succ hk, by omega, by simpa using hp⟩
    · rintro ⟨k, hk, hj, hp⟩
      rcases k with _ | k
      · apply List.mem_append.2 (Or.inl ?_)
        simp at hp
        simp [hp]
        omega
      · refine List.mem_append.2 (Or.inr ?_)
        refine (ih (i + 1) j).2 ⟨k, by simpa using Nat.lt_of_succ_lt_succ hk, by omega, ?_⟩
        simpa using hp

/-- Every index produced by the loop started at `i` is at least `i`. -/
lemma filterLoop_le (enabled : EnabledLevels) (u : Bool) (q : List Char) :
    ∀ (logs : List LogEntry) (i j : Nat),
      j ∈ filterLoop enabled u q i logs → i ≤ j := by
  intro logs
  induction logs with
  | nil => intro i j h; simp [filterLoop] at h
  | cons a rest ih =>
    intro i j h
    rw [filterLoop_cons] at h
    rcases List.mem_append.1 h with hl | hr
    · rcases hp : passes enabled u q a with _ | _ <;> simp [hp] at hl
      omega
    · have := ih (i + 1) j hr
      omega

/-- The produced indices are strictly increasing. -/
lemma filterLoop_pairwise (enabled : EnabledLevels) (u : Bool) (q : List Char) :
    ∀ (logs : List LogEntry) (i : Nat),
      List.Pairwise (· < ·) (filterLoop enabled u q i logs) := by
  intro logs
  induction logs with
  | nil => intro i; simp [filterLoop]
  | cons a rest ih =>
    intro i
    rw [filterLoop_cons]
    rcases hp : passes enabled u q a with _ | _
    · simpa using ih (i + 1)
    · simp only [hp, if_true, List.singleton_append, List.pairwise_cons]
      refine ⟨fun j hj => ?_, ih (i + 1)⟩
      have := filterLoop_le enabled u q rest (i + 1) j hj
      omega

/-- The loop predicate, restated against the record's lowercase message
(as the spec phrases it) for a record whose `lc` field is well-formed. -/
lemma passes_iff (enabled : EnabledLevels) (q : List Char) (log : LogEntry)
    (hlc : log.lc = lowerList log.message) :
    passes enabled (decide (0 < q.length)) q log = true ↔
      enabled.get log.level = true ∧
        (q = [] ∨ hasSub (lowerList log.message) q = true) := by
  unfold passes
  rw [hlc]
  rcases q with _ | ⟨c, q⟩ <;> simp

/-- A concrete record with a well-formed precomputed lowercase field. -/
def mkEntry (lvl : LogLevel) (msg : List Char) : LogEntry :=
  ⟨[], 0, lvl, msg, lowerList msg⟩

/-- The spec scenario buffer: 5 records with levels
`[INFO, ERROR, INFO, WARN, ERROR]`. -/
def scenarioLogs : List LogEntry :=
  [mkEntry .INFO ['o', 'k'], mkEntry .ERROR ['b', 'a', 'd'],
   mkEntry .INFO ['o', 'k', '2'], mkEntry .WARN ['h', 'm'],
   mkEntry .ERROR ['b', 'a', 'd', '2']]

/-- The spec scenario filter state: only `ERROR` enabled. -/
def onlyError : EnabledLevels := ⟨false, false, false, true⟩

/-- C1: for every buffer, enabled-level map and raw query string, the
visible index set computed by `filteredIndices` (fed the effective
query `debouncedSearchLc s`) contains exactly the positions whose
record has an enabled level and, when the effective query is nonempty,
whose lowercase message contains the (lowercase) query as a substring;
the indices are in strictly ascending order.  In particular, for the
5-record scenario buffer with only ERROR enabled and empty query the
result is `[1, 4]`. -/
theorem c1_filter_correctness :
    (∀ (logs : List LogEntry) (enabled : EnabledLevels) (s : List Char),
      (∀ e ∈ logs, e.lc = lowerList e.message) →
      (∀ j, j ∈ filteredIndices logs enabled (debouncedSearchLc s) ↔
        ∃ h : j < logs.length,
          enabled.get (logs.get ⟨j, h⟩).level = true ∧
            (debouncedSearchLc s = [] ∨
              hasSub (lowerList (logs.get ⟨j, h⟩).message)
                (debouncedSearchLc s) = true)) ∧
      List.Pairwise (· < ·)
        (filteredIndices logs enabled (debouncedSearchLc s))) ∧
    filteredIndices scenarioLogs onlyError (debouncedSearchLc []) = [1, 4] := by
  constructor
  · intro logs enabled s hlc
    refine ⟨fun j => ?_, filterLoop_pairwise _ _ _ _ _⟩
    rw [filteredIndices, mem_filterLoop]
    constructor
    · rintro ⟨k, hk, hjk, hp⟩
      have hkj : k = j := by omega
      subst hkj
      exact ⟨hk, (passes_iff _ _ _ (hlc _ (List.get_mem logs _ _))).1 hp⟩
    · rintro ⟨h, hcond⟩
      exact ⟨j, h, by omega,
        (passes_iff _ _ _ (hlc _ (List.get_mem logs _ _))).2 hcond⟩
  · decide

/-- Witness for C1 at the scenario input: position 1 (an ERROR record)
is visible under the characterization. -/
theorem c1_filter_correctness_witness :
    1 ∈ filteredIndices scenarioLogs onlyError (debouncedSearchLc []) ↔
      ∃ h : 1 < scenarioLogs.length,
        onlyError.get (scenarioLogs.get ⟨1, h⟩).level = true ∧
          (debouncedSearchLc [] = [] ∨
            hasSub (lowerList (scenarioLogs.get ⟨1, h⟩).message)
              (debouncedSearchLc []) = true) :=
  (c1_filter_correctness.1 scenarioLogs onlyError [] (by decide)).1 1

/-! ## Trim idempotence (for C10) -/

/-- `dropWhile` is idempotent. -/
lemma dropWhile_idem {α : Type} (p : α → Bool) :
    ∀ l : List α, (l.dropWhile p).dropWhile p = l.dropWhile p := by
  intro l
  induction l with
  | nil => simp
  | cons a l ih =>
    rcases ha : p a with _ | _ <;> simp [List.dropWhile_cons, ha, ih]

/-- The head of a `dropWhile` result fails the predicate. -/
lemma dropWhile_head_false {α : Type} (p : α → Bool) :
    ∀ (l : List α) (c : α) (rest : List α),
      l.dropWhile p = c :: rest → p c = false := by
  intro l
  induction l with
  | nil => intro c rest h; simp at h
  | cons a l ih =>
    intro c rest h
    rcases ha : p a with _ | _
    · rw [List.dropWhile_cons, ha] at h
      simp at h
      rcases h with ⟨h1, _⟩
      rw [← h1]; exact ha
    · rw [List.dropWhile_cons, ha] at h
      simp at h
      exact ih c rest h

/-- `dropWhile` removes an initial segment: the result is reached by
prepending the dropped elements. -/
lemma dropWhile_eq_append {α : Type} (p : α → Bool) :
    ∀ l : List α, ∃ t, t ++ l.dropWhile p = l := by
  intro l
  induction l with
  | nil => exact ⟨[], rfl⟩
  | cons a l ih =>
    rcases ha : p a with _ | _
    · exact ⟨[], by simp [List.dropWhile_cons, ha]⟩
    · rcases ih with ⟨t, ht⟩
      exact ⟨a :: t, by simp [List.dropWhile_cons, ha, ht]⟩

/-- JS `trim` is idempotent: trimming a trimmed string changes nothing. -/
lemma trimList_idem (s : List Char) : trimList (trimList s) = trimList s := by
  -- the trimmed string is an initial segment of the leading-trimmed one
  have hpre : ∃ t, trimList s ++ t = s.dropWhile jsWs := by
    rcases dropWhile_eq_append jsWs ((s.dropWhile jsWs).reverse) with ⟨t, ht⟩
    exact ⟨t.reverse, by simpa [trimList] using congrArg List.reverse ht⟩
  -- hence its head (if any) fails `jsWs`, so a second leading trim is a no-op
  have hstep1 : (trimList s).dropWhile jsWs = trimList s := by
    rcases hmr : trimList s with _ | ⟨c, rest⟩
    · simp
    · rcases hpre with ⟨t, ht⟩
      rw [hmr] at ht
      have hds : s.dropWhile jsWs = c :: (rest ++ t) := by rw [← ht]; simp
      have hc : jsWs c = false := dropWhile_head_false jsWs s c _ hds
      simp [List.dropWhile_cons, hc]
  -- and a second trailing trim is a no-op since `dropWhile` is idempotent
  conv_lhs => rw [trimList]
  rw [hstep1]
  rw [show (trimList s).reverse = (s.dropWhile jsWs).reverse.dropWhile jsWs from
    by simp [trimList]]
  rw [dropWhile_idem]
  simp [trimList]

/-- C10: filtering is invariant under trimming the raw query (the code
trims before lowercasing, and trim is idempotent), and a whitespace-only
query behaves exactly like the empty query. -/
theorem c10_trim_invariant :
    (∀ (logs : List LogEntry) (enabled : EnabledLevels) (s : List Char),
      filteredIndices logs enabled (debouncedSearchLc s) =
        filteredIndices logs enabled (debouncedSearchLc (trimList s))) ∧
    (∀ (logs : List LogEntry) (enabled : EnabledLevels) (s : List Char),
      (∀ c ∈ s, jsWs c = true) →
      filteredIndices logs enabled (debouncedSearchLc s) =
        filteredIndices logs enabled (debouncedSearchLc [])) := by
  constructor
  · intro logs enabled s
    rw [debouncedSearchLc, debouncedSearchLc, trimList_idem]
  · intro logs enabled s hws
    have h1 : s.dropWhile jsWs = [] := List.dropWhile_eq_nil_iff.2 hws
    have h2 : trimList s = [] := by simp [trimList, h1]
    rw [debouncedSearchLc, debouncedSearchLc, h2]
    simp [trimList]

/-- Witness for C10's whitespace-only clause at a concrete input: a
single-space query filters identically to the empty query. -/
theorem c10_trim_invariant_witness :
    filteredIndices scenarioLogs onlyError (debouncedSearchLc [' ']) =
      filteredIndices scenarioLogs onlyError (debouncedSearchLc []) :=
  c10_trim_invariant.2 scenarioLogs onlyError [' '] (by decide)

/-! ## Bounded buffers (for C2)

Two append policies exist in the source:

* `BuildChallengePage` (src/unnamed/part_000):
  `setLogs(prev => [...prev.slice(-999), newLog])` — keep the last 999
  records, then append one (cap 1000).
* `LogStreamDemo` (LogStreamViewer.tsx lines 402-408):
  `const next = prev.length > MAX_LOGS ? prev.slice(prev.length - MAX_LOGS) : prev;
   return next.concat(batch);` — trim to the last `MAX_LOGS` records
  only when the previous length strictly exceeds the cap, then append
  the whole batch. -/

/-- JS `l.slice(-n)` : the last `n` elements (all of them if shorter). -/
def takeLast {α : Type} (n : Nat) (l : List α) : List α :=
  l.drop (l.length - n)

/-- One `BuildChallengePage` append: keep last 999, push the new record. -/
def pageStep (prev : List LogEntry) (x : LogEntry) : List LogEntry :=
  takeLast 999 prev ++ [x]

/-- A whole append sequence through the `BuildChallengePage` policy,
starting from the empty buffer. -/
def pageRun (xs : List LogEntry) : List LogEntry :=
  xs.foldl pageStep []

/-- The configured demo cap (LogStreamViewer.tsx line 392). -/
def MAX_LOGS : Nat := 50000

/-- One `LogStreamDemo` batched append with cap `cap`. -/
def demoStep (cap : Nat) (prev batch : List LogEntry) : List LogEntry :=
  (if cap < prev.length then prev.drop (prev.length - cap) else prev) ++ batch

/-- A whole sequence of batched appends through the `LogStreamDemo`
policy, starting from the empty buffer. -/
def demoRun (cap : Nat) (batches : List (List LogEntry)) : List LogEntry :=
  batches.foldl (demoStep cap) []

lemma takeLast_length {α : Type} (n : Nat) (l : List α) :
    (takeLast n l).length = min n l.length := by
  simp [takeLast]
  omega

lemma takeLast_append_one {α : Type} (n : Nat) (l : List α) (x : α) :
    takeLast (n + 1) (l ++ [x]) = takeLast n l ++ [x] := by
  have h1 : (l ++ [x]).length - (n + 1) = l.length - n := by simp
  rw [takeLast, h1, List.drop_append_eq_append_drop]
  have h2 : l.length - n - l.length = 0 := by omega
  rw [h2]
  simp [takeLast]

lemma takeLast_takeLast {α : Type} (m n : Nat) (l : List α) :
    takeLast m (takeLast n l) = takeLast (min m n) l := by
  simp only [takeLast, List.drop_drop, List.length_drop]
  congr 1
  omega

/-- The page policy always holds exactly the most recent (at most) 1000
appended records, in order. -/
lemma pageRun_eq (xs : List LogEntry) : pageRun xs = takeLast 1000 xs := by
  induction xs using List.reverseRecOn with
  | nil => simp [pageRun, takeLast]
  | append_singleton xs x ih =>
    rw [pageRun, List.foldl_append, List.foldl_cons, List.foldl_nil]
    rw [← pageRun, ih, pageStep, takeLast_takeLast]
    have : min 999 1000 = 999 := by omega
    rw [this]
    exact (takeLast_append_one 999 xs x).symm

/-- Length of a demo batched append. -/
lemma demoStep_length (cap : Nat) (prev batch : List LogEntry) :
    (demoStep cap prev batch).length =
      (if cap < prev.length then cap else prev.length) + batch.length := by
  simp only [demoStep]
  split_ifs with h
  · simp
    omega
  · simp

/-- After any demo batched append the buffer never exceeds the cap by
more than the size of that batch. -/
lemma demoStep_length_le (cap : Nat) (prev batch : List LogEntry) :
    (demoStep cap prev batch).length ≤ cap + batch.length := by
  rw [demoStep_length]
  split_ifs with h <;> omega

/-- The demo buffer always holds a final segment of everything appended
so far, in original order. -/
lemma demoRun_final_segment (cap : Nat) :
    ∀ (bs : List (List LogEntry)) (acc all : List LogEntry),
      (∃ t, t ++ acc = all) →
      ∃ t, t ++ bs.foldl (demoStep cap) acc = all ++ bs.flatten := by
  intro bs
  induction bs with
  | nil => intro acc all h; simpa using h
  | cons b bs ih =>
    intro acc all h
    have hstep : ∃ t, t ++ demoStep cap acc b = all ++ b := by
      rcases h with ⟨t, ht⟩
      rw [demoStep]
      split_ifs with hc
      · refine ⟨t ++ acc.take (acc.length - cap), ?_⟩
        rw [List.append_assoc, ← List.append_assoc (acc.take _),
          List.take_append_drop, ← List.append_assoc, ht]
      · exact ⟨t, by rw [← List.append_assoc, ht]⟩
    have := ih (demoStep cap acc b) (all ++ b) hstep
    simpa [List.append_assoc] using this

/-- Demo buffer length under repeated single-record appends: it climbs
to `cap + 1` and then sticks there (one above the cap). -/
lemma demoRun_ones_length (cap : Nat) (e : LogEntry) :
    ∀ (n : Nat) (acc : List LogEntry), acc.length ≤ cap + 1 →
      ((List.replicate n [e]).foldl (demoStep cap) acc).length =
        min (acc.length + n) (cap + 1) := by
  intro n
  induction n with
  | zero => intro acc h; simp; omega
  | succ n ih =>
    intro acc h
    rw [List.replicate_succ, List.foldl_cons]
    have hlen : (demoStep cap acc [e]).length =
        (if cap < acc.length then cap else acc.length) + 1 := by
      rw [demoStep_length]; simp
    rw [ih _ (by rw [hlen]; split_ifs <;> omega), hlen]
    split_ifs with hc <;> omega

/-- Concatenating `n` singleton batches yields `n` records. -/
lemma flatten_replicate_one (e : LogEntry) :
    ∀ n : Nat, (List.replicate n [e]).flatten = List.replicate n e := by
  intro n
  induction n with
  | zero => simp
  | succ n ih => simp [List.replicate_succ, ih]

/-- A concrete record used in counterexamples and witnesses. -/
def sampleEntry : LogEntry := mkEntry .INFO ['m']

/-- C2 counterexample: appending 50002 single records through the
`LogStreamDemo` policy (cap `MAX_LOGS = 50000`) leaves the buffer at
length 50001 — the cap is exceeded after an append step and the final
length is not `C`. -/
theorem c2_counterexample :
    (List.replicate (MAX_LOGS + 2) [sampleEntry]).flatten.length = MAX_LOGS + 2 ∧
    MAX_LOGS < MAX_LOGS + 2 ∧
    (demoRun MAX_LOGS (List.replicate (MAX_LOGS + 2) [sampleEntry])).length =
      MAX_LOGS + 1 ∧
    MAX_LOGS < (demoRun MAX_LOGS
      (List.replicate (MAX_LOGS + 2) [sampleEntry])).length := by
  have hlen : (demoRun MAX_LOGS
      (List.replicate (MAX_LOGS + 2) [sampleEntry])).length = MAX_LOGS + 1 := by
    rw [demoRun, demoRun_ones_length MAX_LOGS sampleEntry (MAX_LOGS + 2) []
      (by simp)]
    simp
  refine ⟨?_, by omega, hlen, by omega⟩
  rw [flatten_replicate_one]
  simp

/-- C2 amended: the `BuildChallengePage` policy (cap 1000, single
appends) enforces its cap exactly — after every append the buffer is
precisely the most recent (at most) 1000 appended records, in order.
The `LogStreamDemo` policy trims only before appending, so its buffer
may exceed the cap by up to one batch: after any batched append the
length is at most `cap + batch.length`, and the contents always form a
final segment of everything appended, in original relative order. -/
theorem c2_amended_eviction :
    (∀ xs : List LogEntry,
      pageRun xs = takeLast 1000 xs ∧ (pageRun xs).length ≤ 1000) ∧
    (∀ (cap : Nat) (prev batch : List LogEntry),
      (demoStep cap prev batch).length ≤ cap + batch.length) ∧
    (∀ (cap : Nat) (batches : List (List LogEntry)),
      ∃ t, t ++ demoRun cap batches = batches.flatten) := by
  refine ⟨fun xs => ⟨pageRun_eq xs, ?_⟩, demoStep_length_le, fun cap batches => ?_⟩
  · rw [pageRun_eq, takeLast_length]; omega
  · have := demoRun_final_segment cap batches [] [] ⟨[], rfl⟩
    simpa [demoRun] using this

/-! ## Abortable async filtering (`useAsyncMemo`, src/unnamed/part_002
lines 46-76)

Each effect run creates a fresh `AbortController`, kicks off one
computation, and registers a cleanup that aborts that controller; the
cleanup runs exactly when a new effect run starts (or on unmount).
Numbering computations by start order, computation `k`'s signal is
therefore aborted iff `k` is no longer the most recently started
computation.  `current` records the most recent computation's id
(`none` before any start); promise settlement becomes explicit events:

* `.start k`: the effect body — `setLoading(true); setError(null)`;
* `.resolve k v`: the `then` handler (`if (!aborted) setValue(next)`)
  followed by the `finally` (`if (!aborted) setLoading(false)`);
* `.reject k err isAbort`: the `catch` handler
  (`if (!isAbortError(err)) setError(err)`) followed by the `finally`. -/

structure MemoState (T : Type) where
  value : T
  loading : Bool
  error : Option String
  current : Option Nat
deriving DecidableEq, Repr

inductive MemoEvent (T : Type) where
  | start (k : Nat)
  | resolve (k : Nat) (v : T)
  | reject (k : Nat) (err : String) (isAbort : Bool)
deriving DecidableEq, Repr

/-- One settlement / start step of `useAsyncMemo`. -/
def memoStep {T : Type} (s : MemoState T) : MemoEvent T → MemoState T
  | .start k => { s with current := some k, loading := true, error := none }
  | .resolve k v =>
    if s.current = some k then { s with value := v, loading := false } else s
  | .reject k err isAbort =>
    let s1 := if isAbort then s else { s with error := some err }
    if s.current = some k then { s1 with loading := false } else s1

/-- A sequence of `useAsyncMemo` events applied in order. -/
def memoRun {T : Type} (s : MemoState T) (es : List (MemoEvent T)) : MemoState T :=
  es.foldl memoStep s

/-- C3: last-requested-wins.  If request `k1` starts and then `k2`
starts before `k1` settles, the value after both settle is `k2`'s
result regardless of settlement order; and, in general, the resolution
of a superseded (aborted) computation is never applied to the value. -/
theorem c3_last_requested_wins {T : Type} (s0 : MemoState T)
    (k1 k2 : Nat) (v1 v2 : T) (hne : k1 ≠ k2) :
    (memoRun s0 [.start k1, .start k2, .resolve k1 v1, .resolve k2 v2]).value = v2 ∧
    (memoRun s0 [.start k1, .start k2, .resolve k2 v2, .resolve k1 v1]).value = v2 ∧
    (∀ (s : MemoState T) (k : Nat) (v : T), s.current ≠ some k →
      (memoStep s (.resolve k v)).value = s.value) := by
  refine ⟨?_, ?_, ?_⟩
  · simp [memoRun, memoStep, Ne.symm hne]
  · simp [memoRun, memoStep, Ne.symm hne]
  · intro s k v h
    simp [memoStep, h]

/-- An initial `useAsyncMemo` state over `Nat` results. -/
def memoInit : MemoState Nat := ⟨0, false, none, none⟩

/-- Witness for C3: with requests 1 and 2 and the slow one resolving
last, the value is still request 2's result. -/
theorem c3_last_requested_wins_witness :
    (memoRun memoInit
      [.start 1, .start 2, .resolve 2 20, .resolve 1 10]).value = 20 :=
  (c3_last_requested_wins memoInit 1 2 10 20 (by decide)).2.1

/-- C8: a non-cancellation failure is captured in the observable error
state while the displayed value is left unchanged; the value only ever
changes when the current (non-superseded) computation resolves. -/
theorem c8_error_preserves_value {T : Type} (s : MemoState T)
    (k : Nat) (err : String) :
    (memoStep s (.reject k err false)).value = s.value ∧
    (memoStep s (.reject k err false)).error = some err ∧
    (∀ e : MemoEvent T, (memoStep s e).value ≠ s.value →
      ∃ k2 v, e = .resolve k2 v ∧ s.current = some k2 ∧
        (memoStep s e).value = v) := by
  refine ⟨?_, ?_, ?_⟩
  · simp only [memoStep]
    split_ifs <;> simp_all
  · simp only [memoStep]
    split_ifs <;> simp_all
  · intro e h
    cases e with
    | start k2 => simp [memoStep] at h
    | resolve k2 v =>
      by_cases hc : s.current = some k2
      · exact ⟨k2, v, rfl, hc, by simp [memoStep, hc]⟩
      · simp [memoStep, hc] at h
    | reject k2 err2 ab =>
      exfalso
      apply h
      simp only [memoStep]
      cases ab <;> split_ifs <;> simp

/-- Witness for C8: a failing computation reports its error and leaves
the previously-displayed value 5 visible. -/
theorem c8_error_preserves_value_witness :
    (memoStep (⟨5, true, none, some 3⟩ : MemoState Nat)
      (.reject 3 "boom" false)).value = 5 ∧
    (memoStep (⟨5, true, none, some 3⟩ : MemoState Nat)
      (.reject 3 "boom" false)).error = some "boom" :=
  ⟨(c8_error_preserves_value ⟨5, true, none, some 3⟩ 3 "boom").1,
   (c8_error_preserves_value ⟨5, true, none, some 3⟩ 3 "boom").2.1⟩

/-! ## Debounce (`useDebouncedValue`, LogStreamViewer.tsx lines 43-50
and src/unnamed/part_002 lines 79-88)

Every change of the raw value at time `t` re-runs the effect: the
cleanup clears the previous pending timer and a new timer is scheduled
to commit the value at `t + delayMs`.  Hence an edit's value is
committed iff no further edit happens before its timer fires.
`debounceCommits` maps a strictly time-ordered edit sequence to the
sequence of (commit time, value) pairs actually applied. -/

def debounceCommits {α : Type} (delayMs : Nat) :
    List (Nat × α) → List (Nat × α)
  | [] => []
  | (t, v) :: [] => [(t + delayMs, v)]
  | (t, v) :: (t2, v2) :: rest =>
    (if t + delayMs ≤ t2 then [(t + delayMs, v)] else []) ++
      debounceCommits delayMs ((t2, v2) :: rest)

/-- C4: with a 200ms debounce, the edit sequence "a" at 0ms, "ab" at
50ms, "abc" at 100ms commits exactly once, with value "abc" (at
300ms); "a" and "ab" are never committed.  In general an edit arriving
before the pending delay elapses cancels the pending commit (the
remaining commits are those of the later edits alone). -/
theorem c4_debounce :
    (debounceCommits 200 [(0, "a"), (50, "ab"), (100, "abc")] =
      [(300, "abc")]) ∧
    (∀ (α : Type) (d t1 t2 : Nat) (v1 v2 : α) (rest : List (Nat × α)),
      t2 < t1 + d →
      debounceCommits d ((t1, v1) :: (t2, v2) :: rest) =
        debounceCommits d ((t2, v2) :: rest)) := by
  constructor
  · decide
  · intro α d t1 t2 v1 v2 rest h
    have hn : ¬ (t1 + d ≤ t2) := by omega
    simp [debounceCommits, hn]

/-- Witness for C4's cancellation clause: the edit "ab" at 50ms cancels
the pending commit of "a". -/
theorem c4_debounce_witness :
    debounceCommits 200 [(0, "a"), (50, "ab")] =
      debounceCommits 200 [(50, "ab")] :=
  c4_debounce.2 String 200 0 50 "a" "ab" [] (by decide)

/-! ## EventViewer ingestion (src/unnamed/part_002 lines 113-137)

The WebSocket `onmessage` handler: `try { const event = JSON.parse(evt.data);
setEvents(prev => [...prev, event]); onEventReceivedRef.current?.(event); }
catch { }`.  `JSON.parse`-and-cast is modelled as an abstract partial
parser `String → Option Event`; the always-latest callback ref
(`useLatestRef`) is the `cb` field, holding the id of the currently
supplied consumer callback; invocations are recorded in `calls`. -/

inductive EvType where
  | click | navigation | error | api
deriving DecidableEq, Repr

/-- The `Event` interface of src/unnamed/part_002. -/
structure Event where
  id : String
  type : EvType
  timestamp : Int
  message : String
deriving DecidableEq, Repr

structure EvState where
  events : List Event
  cb : Option Nat
  calls : List (Nat × Event)
deriving DecidableEq, Repr

/-- Supplying a new consumer callback: `useLatestRef` makes the handler
observe it immediately (`ref.current = value`). -/
def setCallback (s : EvState) (c : Option Nat) : EvState :=
  { s with cb := c }

/-- The `onmessage` handler.  A payload that fails to parse is
swallowed (state returned unchanged — the function is total, so no
exception propagates); a parsed record is appended and the callback
reference current at invocation time is invoked once (if present). -/
def onMessage (parse : String → Option Event) (s : EvState)
    (payload : String) : EvState :=
  match parse payload with
  | none => s
  | some e =>
    { s with
      events := s.events ++ [e]
      calls := s.calls ++ (match s.cb with
        | some c => [(c, e)]
        | none => []) }

/-- C5: every admitted record invokes the consumer callback exactly
once, and the reference invoked is the one current at invocation time:
after replacing the callback (`setCallback`), the next record invokes
the new callback, not the old one. -/
theorem c5_callback_freshness (parse : String → Option Event)
    (s : EvState) (p : String) (e : Event) (c : Nat)
    (hp : parse p = some e) (hc : s.cb = some c) :
    (onMessage parse s p).calls = s.calls ++ [(c, e)] ∧
    (onMessage parse s p).calls.length = s.calls.length + 1 ∧
    (∀ c2 : Nat, (onMessage parse (setCallback s (some c2)) p).calls =
      s.calls ++ [(c2, e)]) := by
  refine ⟨?_, ?_, ?_⟩ <;> simp [onMessage, setCallback, hp, hc]

/-- A concrete event used in witnesses. -/
def evW : Event := ⟨"e1", .click, 0, "hello"⟩

/-- A concrete parser accepting exactly the payload "ok". -/
def parseOk : String → Option Event :=
  fun p => if p = "ok" then some evW else none

/-- A parser rejecting every payload (malformed input). -/
def parseFail : String → Option Event := fun _ => none

/-- Witness for C5: with callback 1 supplied at connect time and then
replaced by callback 2, the next record invokes callback 2. -/
theorem c5_callback_freshness_witness :
    (onMessage parseOk (setCallback ⟨[], some 1, []⟩ (some 2)) "ok").calls =
      ([] : List (Nat × Event)) ++ [(2, evW)] :=
  (c5_callback_freshness parseOk ⟨[], some 1, []⟩ "ok" evW 1
    (by decide) rfl).2.2 2

/-- C9: a payload that fails to parse is swallowed at the ingestion
boundary — the buffer is not mutated, no callback fires, and (since
`onMessage` is a total function) no exception propagates; a payload
that parses is appended and the callback fires. -/
theorem c9_malformed_swallowed (parse : String → Option Event)
    (s : EvState) (p : String) :
    (parse p = none → onMessage parse s p = s) ∧
    (∀ e, parse p = some e →
      (onMessage parse s p).events = s.events ++ [e] ∧
      ∀ c, s.cb = some c →
        (onMessage parse s p).calls = s.calls ++ [(c, e)]) := by
  constructor
  · intro h
    simp [onMessage, h]
  · intro e h
    exact ⟨by simp [onMessage, h], fun c hc => by simp [onMessage, h, hc]⟩

/-- Witness for C9: a malformed payload leaves the viewer state
untouched. -/
theorem c9_malformed_swallowed_witness :
    onMessage parseFail ⟨[], some 1, []⟩ "garbage" =
      (⟨[], some 1, []⟩ : EvState) :=
  (c9_malformed_swallowed parseFail ⟨[], some 1, []⟩ "garbage").1 rfl

/-! ## Windowed renderer pin state (LogStreamViewer.tsx lines 193-248)

`atBottom` is the pin flag; `effectiveFollow = autoFollowEnabled &&
atBottom`.  The `onScroll` handler ignores scroll events with
`scrollUpdateWasRequested = true` (programmatic scrolls) and otherwise
recomputes `atBottom` from the offset; the `useLayoutEffect` re-pins by
emitting `scrollToItem(itemCount - 1, "end")` whenever
`effectiveFollow` holds and the visible list is nonempty;
`jumpToLatest` emits the same command and touches no state. -/

structure ViewerUiState where
  autoFollowEnabled : Bool
  atBottom : Bool
deriving DecidableEq, Repr

/-- `effectiveFollow = autoFollowEnabled && atBottom` (line 234). -/
def effectiveFollow (s : ViewerUiState) : Bool :=
  s.autoFollowEnabled && s.atBottom

/-- An imperative `scrollToItem(index, align)` command. -/
structure ScrollCmd where
  index : Nat
  align : String
deriving DecidableEq, Repr

/-- The `useLayoutEffect` body (lines 238-243): when following and the
filtered list is nonempty, scroll to the last visible row, end-aligned. -/
def followEffect (s : ViewerUiState) (itemCount : Nat) : Option ScrollCmd :=
  if !(effectiveFollow s) then none
  else if itemCount ≤ 0 then none
  else some ⟨itemCount - 1, "end"⟩

/-- The `onScroll` handler (lines 222-232).  Offsets are pixel
integers; `maxOffset = max 0 (itemCount * rowHeight - height)` and the
threshold is two row heights. -/
def onScrollStep (itemCount rowHeight height : Nat) (s : ViewerUiState)
    (scrollOffset : Int) (scrollUpdateWasRequested : Bool) : ViewerUiState :=
  if scrollUpdateWasRequested then s
  else
    let total : Int := (itemCount : Int) * (rowHeight : Int)
    let maxOffset : Int := max 0 (total - (height : Int))
    let threshold : Int := (rowHeight : Int) * 2
    { s with atBottom := decide (maxOffset - threshold ≤ scrollOffset) }

/-- `jumpToLatest` (lines 245-248): emits a programmatic scroll command
and modifies no state. -/
def jumpToLatest (s : ViewerUiState) (itemCount : Nat) :
    ViewerUiState × Option ScrollCmd :=
  if itemCount ≤ 0 then (s, none) else (s, some ⟨itemCount - 1, "end"⟩)

/-- C6: from the pinned state (auto-follow on, at bottom) with a
nonempty visible list, the layout effect emits a scroll to the new last
index, end-aligned; and a programmatic scroll event
(`scrollUpdateWasRequested = true`) leaves the whole pin state — in
particular `atBottom` — unchanged, so it never triggers the
pinned-to-unpinned transition. -/
theorem c6_pin_follow (s : ViewerUiState) (n : Nat)
    (hf : s.autoFollowEnabled = true) (hb : s.atBottom = true) (hn : 0 < n) :
    followEffect s n = some ⟨n - 1, "end"⟩ ∧
    (∀ (m rh h : Nat) (off : Int), onScrollStep m rh h s off true = s) := by
  constructor
  · simp [followEffect, effectiveFollow, hf, hb,
      show ¬ n ≤ 0 from by omega]
  · intro m rh h off
    simp [onScrollStep]

/-- Witness for C6: pinned with 10000 visible records, the effect
scrolls to index 9999, end-aligned. -/
theorem c6_pin_follow_witness :
    followEffect ⟨true, true⟩ 10000 = some ⟨9999, "end"⟩ :=
  (c6_pin_follow ⟨true, true⟩ 10000 rfl rfl (by decide)).1

/-- C7, evaluated at the failing input (auto-follow on, scrolled away,
10000 visible records): the "jump to latest" action emits only a
programmatic scroll command; it does not set `atBottom`, and the
resulting scroll event carries `scrollUpdateWasRequested = true`, which
the handler ignores — so the viewer stays unpinned
(`effectiveFollow = false`) after the jump, contradicting the claimed
`unpinned → pinned` transition.  (The other claimed transition does
hold: a user scroll back within two row heights of the bottom sets
`atBottom = true`.) -/
theorem c7_jump_does_not_pin :
    ((jumpToLatest ⟨true, false⟩ 10000).1.atBottom = false ∧
     (jumpToLatest ⟨true, false⟩ 10000).2 = some ⟨9999, "end"⟩ ∧
     onScrollStep 10000 24 520 (jumpToLatest ⟨true, false⟩ 10000).1
       (10000 * 24 - 520 : Int) true = ⟨true, false⟩ ∧
     effectiveFollow (onScrollStep 10000 24 520
       (jumpToLatest ⟨true, false⟩ 10000).1
       (10000 * 24 - 520 : Int) true) = false) ∧
    (onScrollStep 10000 24 520 ⟨true, false⟩
      (10000 * 24 - 520 : Int) false).atBottom = true := by
  decide

end UiWebsocket
